import Mathlib

/-!
# Verification of the `bevy_tweening` animation timing and composition engine

Shallow embedding of `src/tweenable.rs`. Time spans (`std::time::Duration`)
and `f32` ratios are both modelled as exact rationals `ℚ`; the engine's
epsilon constant `1e-5` is the rational `1/100000`. Machine-level float
rounding and the nanosecond quantization of `Duration` are idealized away,
matching the spec's own real-number description of the algorithms.

`Duration` is non-negative by construction in Rust; theorems carry
non-negativity hypotheses where the arithmetic needs them.
-/

namespace BevyTweening

/-- The engine's floating-rounding compensation constant (`1e-5` in the source). -/
def eps : ℚ := 1 / 100000

/-- `f32::fract` in Rust is `x - x.trunc()`, truncation toward zero.
For non-negative `x` this agrees with `x - ⌊x⌋`; for negative non-integral
`x` the result is negative. -/
def rustFract (x : ℚ) : ℚ :=
  if 0 ≤ x then x - ⌊x⌋ else x - ⌈x⌉

/-- `f32::clamp(lo, hi)`: `min (max x lo) hi`. -/
def rustClamp (x lo hi : ℚ) : ℚ := min (max x lo) hi

/-- Floating modulo `x % y` for non-negative operands (`f32` `%` is the
truncation-based remainder, which agrees with the floor-based one here). -/
def fmod (x y : ℚ) : ℚ := x - y * ⌊x / y⌋

/-- `enum TweenState { Active, Completed }` from the source. -/
inductive TweenState where
  | active
  | completed
deriving DecidableEq, Repr

/-- `struct TweenCompleted { entity: Entity, user_data: u64 }` from the source.
`Entity` is an opaque token; we model it as `ℕ`. -/
structure TweenCompleted where
  entity : ℕ
  userData : ℕ
deriving DecidableEq, Repr

/-- `enum TweeningType` (from the crate root, referenced by `tweenable.rs`):
`Once`, `Loop`, `LoopTimes(u32)`, `PingPong`, `PingPongTimes(u32)`. -/
inductive TweeningType where
  | once
  | loop
  | loopTimes (times : ℕ)
  | pingPong
  | pingPongTimes (times : ℕ)
deriving DecidableEq, Repr

/-- `enum TweeningDirection { Forward, Backward }`. -/
inductive TweeningDirection where
  | forward
  | backward
deriving DecidableEq, Repr

/-- `Not for TweeningDirection` (`!self.direction` in `Tween::tick`). -/
def TweeningDirection.flip : TweeningDirection → TweeningDirection
  | .forward => .backward
  | .backward => .forward

def TweeningDirection.isBackward : TweeningDirection → Bool
  | .forward => false
  | .backward => true

/-- `struct AnimClock { elapsed, duration, original, is_looping }`. -/
structure AnimClock where
  elapsed : ℚ
  duration : ℚ
  original : ℚ
  isLooping : Bool
deriving DecidableEq, Repr

namespace AnimClock

/-- `AnimClock::new(duration, is_looping)`. -/
def new (duration : ℚ) (isLooping : Bool) : AnimClock :=
  { elapsed := 0, duration := duration, original := duration, isLooping := isLooping }

/-- `AnimClock::tick`: add the delta to `elapsed`; report the number of
completions this call and wrap or clamp `elapsed`.
The `as u32` cast of the non-negative floor is `Int.toNat`. -/
def tick (c : AnimClock) (delta : ℚ) : AnimClock × ℕ :=
  let e := c.elapsed + delta
  if e < c.duration then
    ({ c with elapsed := e }, 0)
  else if c.isLooping then
    ({ c with elapsed := fmod e c.duration }, (⌊e / c.duration + eps⌋).toNat)
  else
    ({ c with elapsed := c.duration }, 1)

/-- `AnimClock::set_progress`. The Rust code computes
`self.duration.mul_f32(progress')` where `progress'` is `progress.fract()`
(looping) or `progress.clamp(0., 1.)` (non-looping). We return the exact
product; `Duration::mul_f32` panics when the factor is negative, which is
captured separately by `setProgressAborts`. -/
def setProgress (c : AnimClock) (progress : ℚ) : AnimClock :=
  let p := if c.isLooping then rustFract progress else rustClamp progress 0 1
  { c with elapsed := c.duration * p }

/-- The abort (panic) condition of `AnimClock::set_progress`:
`Duration::mul_f32` panics when its factor is negative. -/
def setProgressAborts (c : AnimClock) (progress : ℚ) : Prop :=
  (if c.isLooping then rustFract progress else rustClamp progress 0 1) < 0

instance (c : AnimClock) (p : ℚ) : Decidable (setProgressAborts c p) := by
  unfold setProgressAborts; infer_instance

/-- `AnimClock::progress` = `elapsed / duration`. -/
def progress (c : AnimClock) : ℚ := c.elapsed / c.duration

/-- `AnimClock::completed` = `elapsed >= duration`. -/
def completed (c : AnimClock) : Prop := c.duration ≤ c.elapsed

instance (c : AnimClock) : Decidable c.completed := by
  unfold completed; infer_instance

/-- `AnimClock::reset`. -/
def reset (c : AnimClock) : AnimClock := { c with elapsed := 0 }

end AnimClock

/-- `fmod x d` rewritten through `Int.fract` (for a non-zero modulus). -/
theorem fmod_eq_fract_mul (x d : ℚ) (hd : d ≠ 0) :
    fmod x d = d * Int.fract (x / d) := by
  unfold fmod Int.fract
  field_simp

theorem fmod_nonneg (x d : ℚ) (hd : 0 < d) : 0 ≤ fmod x d := by
  rw [fmod_eq_fract_mul x d hd.ne']
  exact mul_nonneg hd.le (Int.fract_nonneg _)

theorem fmod_lt (x d : ℚ) (hd : 0 < d) : fmod x d < d := by
  rw [fmod_eq_fract_mul x d hd.ne']
  calc d * Int.fract (x / d) < d * 1 := by
        exact mul_lt_mul_of_pos_left (Int.fract_lt_one _) hd
    _ = d := mul_one d

/-- Whether a `TweeningType` is one of the ping-pong variants
(`self.tweening_type == PingPong || matches!(.., PingPongTimes(_))`). -/
def TweeningType.isPingPongKind : TweeningType → Bool
  | .pingPong => true
  | .pingPongTimes _ => true
  | _ => false

/-- `struct Tween<T>`: a leaf tween. The easing capability, the lens and
the completion callback are opaque capabilities; the ease and lens are kept
as functions, the callback only as its presence flag (its effect on the
world is counted by the number of invocations `tick` performs). -/
structure Tween (T : Type) where
  easeFunction : ℚ → ℚ
  clock : AnimClock
  timesCompleted : ℕ
  tweeningType : TweeningType
  direction : TweeningDirection
  lens : T → ℚ → T
  hasOnCompleted : Bool
  eventData : Option ℕ

namespace Tween

/-- `Tween::new(ease_function, tweening_type, duration, lens)`. -/
def new {T : Type} (ease : ℚ → ℚ) (ty : TweeningType) (duration : ℚ)
    (lens : T → ℚ → T) : Tween T :=
  { easeFunction := ease
    clock := AnimClock.new duration (decide (ty ≠ TweeningType.once))
    timesCompleted := 0
    tweeningType := ty
    direction := .forward
    lens := lens
    hasOnCompleted := false
    eventData := none }

/-- `Tweenable::is_looping` for `Tween<T>`. -/
def isLooping {T : Type} (t : Tween T) : Bool :=
  match t.tweeningType with
  | .once => false
  | .loop => true
  | .pingPong => true
  | .loopTimes n => t.timesCompleted < n
  | .pingPongTimes n => t.timesCompleted < n

end Tween

/-- The data flowing out of one `tick` call: the mutated target, the
resulting play state, the completion events appended to the sink (in
emission order) and the number of completion-callback invocations. -/
structure TickOut (T : Type) where
  target : T
  state : TweenState
  events : List TweenCompleted
  callbacks : ℕ

/-- `Tweenable::tick` for `Tween<T>` (`Tween::tick` in the source). -/
def Tween.tick {T : Type} (t : Tween T) (delta : ℚ) (target : T) (entity : ℕ) :
    Tween T × TickOut T :=
  if t.isLooping = false ∧ t.clock.completed then
    (t, ⟨target, .completed, [], 0⟩)
  else
    let r := t.clock.tick delta
    let n := r.2
    let dir := if n % 2 = 1 ∧ t.tweeningType.isPingPongKind then
        t.direction.flip
      else t.direction
    let t2 : Tween T :=
      { t with clock := r.1, timesCompleted := t.timesCompleted + n, direction := dir }
    let state : TweenState := if t2.isLooping ∨ t2.timesCompleted = 0 then .active else .completed
    let progress := t2.clock.progress
    let factor := if dir.isBackward then 1 - progress else progress
    let target' := t.lens target (t.easeFunction factor)
    let events : List TweenCompleted :=
      if 0 < n then
        match t.eventData with
        | some u => [⟨entity, u⟩]
        | none => []
      else []
    let callbacks := if 0 < n ∧ t.hasOnCompleted then 1 else 0
    (t2, ⟨target', state, events, callbacks⟩)

/-- `Tweenable::set_speed` for `Tween<T>`. -/
def Tween.setSpeed {T : Type} (t : Tween T) (speed : ℚ) : Tween T :=
  let p := t.clock.progress
  let c : AnimClock := { t.clock with duration := t.clock.original * speed }
  { t with clock := c.setProgress p }

/-- `Tweenable::rewind` for `Tween<T>`. -/
def Tween.rewind {T : Type} (t : Tween T) : Tween T :=
  { t with clock := t.clock.reset, timesCompleted := 0 }

/-- Model of `bevy::time::Timer` (non-repeating), the external timer used
by `Delay`: `tick` accumulates elapsed time clamped at the duration and
latches the `finished` flag once the duration is reached; `reset` clears
both; `percent = elapsed / duration`. -/
structure Timer where
  elapsed : ℚ
  duration : ℚ
  finished : Bool

namespace Timer

def new (duration : ℚ) : Timer := { elapsed := 0, duration := duration, finished := false }

def tick (t : Timer) (delta : ℚ) : Timer :=
  let e := min (t.elapsed + delta) t.duration
  { t with elapsed := e, finished := decide (t.duration ≤ e) }

def percent (t : Timer) : ℚ := t.elapsed / t.duration

def reset (t : Timer) : Timer := { t with elapsed := 0, finished := false }

def setDuration (t : Timer) (d : ℚ) : Timer := { t with duration := d }

end Timer

/-- `struct Delay { timer: Timer, original: Duration }`. -/
structure Delay where
  timer : Timer
  original : ℚ

/-- `Delay::new(duration)`. -/
def Delay.new (duration : ℚ) : Delay :=
  { timer := Timer.new duration, original := duration }

/-- The polymorphic `Tweenable` node tree: the trait-object collections of
the source become a nested inductive over the four implementations.
A `seq` node carries `(tweens, index, duration, elapsed)`; a `tracks` node
carries `(tracks, duration, elapsed, completed)`. -/
inductive Tweenable (T : Type) where
  | tween (t : Tween T)
  | seq (tweens : List (Tweenable T)) (index : ℕ) (duration : ℚ) (elapsed : ℚ)
  | tracks (tracks : List (Tweenable T)) (duration : ℚ) (elapsed : ℚ) (completed : Bool)
  | delay (d : Delay)

namespace Tweenable

/-- `Tweenable::duration` for the four node kinds (each reads a stored field). -/
def duration {T : Type} : Tweenable T → ℚ
  | .tween t => t.clock.duration
  | .seq _ _ d _ => d
  | .tracks _ d _ _ => d
  | .delay d => d.timer.duration

/-- `Tweenable::is_looping` (composites hard-code `false`). -/
def isLooping {T : Type} : Tweenable T → Bool
  | .tween t => t.isLooping
  | .seq _ _ _ _ => false
  | .tracks _ _ _ _ => false
  | .delay _ => false

/-- `Tweenable::times_completed`. -/
def timesCompleted {T : Type} : Tweenable T → ℕ
  | .tween t => t.timesCompleted
  | .seq ts i _ _ => if i = ts.length then 1 else 0
  | .tracks _ _ _ c => if c then 1 else 0
  | .delay d => if d.timer.finished then 1 else 0

/-- `Tweenable::progress`. -/
def progress {T : Type} : Tweenable T → ℚ
  | .tween t => t.clock.progress
  | .seq _ _ d e => e / d
  | .tracks _ d e _ => e / d
  | .delay d => d.timer.percent

mutual

/-- `Tweenable::rewind` for the four node kinds. -/
def rewind {T : Type} : Tweenable T → Tweenable T
  | .tween t => .tween t.rewind
  | .seq ts _ d _ => .seq (rewindList ts) 0 d 0
  | .tracks ts d _ _ => .tracks (rewindList ts) d 0 false
  | .delay dl => .delay { dl with timer := dl.timer.reset }

/-- Rewinding every child of a composite (`for tween in &mut ... { tween.rewind() }`). -/
def rewindList {T : Type} : List (Tweenable T) → List (Tweenable T)
  | [] => []
  | t :: ts => rewind t :: rewindList ts

end

/-- Result of ticking the child suffix of a `Sequence`: the updated
children, the number of children the running index advanced past, and the
aggregated tick output. -/
structure SeqTickResult (T : Type) where
  tweens : List (Tweenable T)
  advanced : ℕ
  out : TickOut T

/-- Result of ticking the children of a `Tracks`. -/
structure TracksTickResult (T : Type) where
  tracks : List (Tweenable T)
  out : TickOut T

mutual

/-- `Tweenable::tick` for the four node kinds (`Tween::tick`,
`Sequence::tick`, `Tracks::tick`, `Delay::tick` in the source). -/
def tick {T : Type} : Tweenable T → ℚ → T → ℕ → Tweenable T × TickOut T
  | .tween t, delta, target, entity =>
    let r := t.tick delta target entity
    (.tween r.1, r.2)
  | .seq ts idx dur elapsed, delta, target, entity =>
    let elapsed' := min (elapsed + delta) dur
    let r := seqTickAux delta target entity idx ts
    (.seq r.tweens (idx + r.advanced) dur elapsed', r.out)
  | .tracks ts dur elapsed _, delta, target, entity =>
    let elapsed' := min (elapsed + delta) dur
    let r := tracksTickAux delta entity ts target
    (.tracks r.tracks dur elapsed' (decide (r.out.state = .completed)), r.out)
  | .delay dl, delta, target, _ =>
    let timer' := dl.timer.tick delta
    (.delay { dl with timer := timer' },
      ⟨target, if timer'.finished then .completed else .active, [], 0⟩)

/-- The loop of `Sequence::tick` over `self.tweens[self.index..]`: the
first argument counts how many leading children are skipped (the stored
index); at `0` the active-child loop body runs. On a completed child the
delta consumed by that child — `(times_completed − prev_completions − 1) ×
duration` for extra full loops (`ℕ` subtraction here; the `u32`
subtraction in the source would trap if the child reported `Completed`
without completing, which the engine never does) plus `duration × (1 −
prev_progress)` to finish it — is removed before recursing into the next
child; if that subtraction would underflow (`Duration::checked_sub`
returning `None`), the loop stops reporting `Active`. -/
def seqTickAux {T : Type} (delta : ℚ) (target : T) (entity : ℕ) :
    ℕ → List (Tweenable T) → SeqTickResult T
  | _, [] => ⟨[], 0, ⟨target, .completed, [], 0⟩⟩
  | Nat.succ n, t :: ts =>
    let r := seqTickAux delta target entity n ts
    ⟨t :: r.tweens, r.advanced, r.out⟩
  | 0, t :: ts =>
    let prevProgress := Tweenable.progress t
    let prevCompletions := Tweenable.timesCompleted t
    let r := tick t delta target entity
    if r.2.state ≠ .completed then
      ⟨r.1 :: ts, 0, r.2⟩
    else if ts.isEmpty then
      ⟨r.1 :: ts, 1, r.2⟩
    else
      let tweenDuration := Tweenable.duration r.1
      let fullCompletions := (Tweenable.timesCompleted r.1 - prevCompletions - 1) * tweenDuration
      let delta1 := delta - fullCompletions
      let usedDelta := tweenDuration * (1 - prevProgress)
      if usedDelta ≤ delta1 then
        let rr := seqTickAux (delta1 - usedDelta) r.2.target entity 0 ts
        ⟨r.1 :: rr.tweens, rr.advanced + 1,
          ⟨rr.out.target, rr.out.state, r.2.events ++ rr.out.events,
            r.2.callbacks + rr.out.callbacks⟩⟩
      else
        ⟨r.1 :: ts, 1, ⟨r.2.target, .active, r.2.events, r.2.callbacks⟩⟩

/-- The loop of `Tracks::tick`: every child is ticked with the same full
delta; the aggregate state is `Active` if any child reported `Active`. -/
def tracksTickAux {T : Type} (delta : ℚ) (entity : ℕ) :
    List (Tweenable T) → T → TracksTickResult T
  | [], target => ⟨[], ⟨target, .completed, [], 0⟩⟩
  | t :: ts, target =>
    let r := tick t delta target entity
    let rr := tracksTickAux delta entity ts r.2.target
    ⟨r.1 :: rr.tracks,
      ⟨rr.out.target, if r.2.state = .active then .active else rr.out.state,
        r.2.events ++ rr.out.events, r.2.callbacks + rr.out.callbacks⟩⟩

end

/-- Induction over the node tree: to prove `P` for every node it suffices
to prove it for leaves and, for composites, assuming it for every child. -/
theorem inductionOn {T : Type} {P : Tweenable T → Prop}
    (htween : ∀ t, P (.tween t))
    (hseq : ∀ ts i d e, (∀ x ∈ ts, P x) → P (.seq ts i d e))
    (htracks : ∀ ts d e c, (∀ x ∈ ts, P x) → P (.tracks ts d e c))
    (hdelay : ∀ d, P (.delay d)) : ∀ x, P x := by
  have key : ∀ (n : ℕ) (x : Tweenable T), sizeOf x ≤ n → P x := by
    intro n
    induction n with
    | zero =>
      intro x hx
      exfalso
      cases x <;> simp only [Tweenable.tween.sizeOf_spec, Tweenable.seq.sizeOf_spec,
        Tweenable.tracks.sizeOf_spec, Tweenable.delay.sizeOf_spec] at hx <;> omega
    | succ n ih =>
      intro x hx
      cases x with
      | tween t => exact htween t
      | seq ts i d e =>
        refine hseq ts i d e fun y hy => ih y ?_
        have h1 := List.sizeOf_lt_of_mem hy
        simp only [Tweenable.seq.sizeOf_spec] at hx
        omega
      | tracks ts d e c =>
        refine htracks ts d e c fun y hy => ih y ?_
        have h1 := List.sizeOf_lt_of_mem hy
        simp only [Tweenable.tracks.sizeOf_spec] at hx
        omega
      | delay d => exact hdelay d
  exact fun x => key (sizeOf x) x le_rfl

/-- `Sequence::new(items)`: children with index 0, cached duration the sum
of the children's durations, elapsed 0. The source asserts the collection
is non-empty; theorems carry that hypothesis where it matters. -/
def seqNew {T : Type} (ts : List (Tweenable T)) : Tweenable T :=
  .seq ts 0 (ts.map duration).sum 0

/-- `Sequence::from_single(tween)`. -/
def seqFromSingle {T : Type} (t : Tweenable T) : Tweenable T :=
  .seq [t] 0 (duration t) 0

/-- `Sequence::with_capacity(_)`: an empty sequence with zero cached duration. -/
def seqWithCapacity {T : Type} : Tweenable T :=
  .seq ([] : List (Tweenable T)) 0 0 0

/-- `Sequence::then(tween)`: append a child and add its duration to the cache. -/
def seqThen {T : Type} : Tweenable T → Tweenable T → Tweenable T
  | .seq ts idx dur elapsed, t => .seq (ts ++ [t]) idx (dur + duration t) elapsed
  | s, _ => s

/-- `Tracks::new(items)`: cached duration is the maximum of the children's
durations (`.max().unwrap()`; the source panics on an empty collection,
here the default is 0). -/
def tracksNew {T : Type} (ts : List (Tweenable T)) : Tweenable T :=
  .tracks ts ((ts.map duration).max?.getD 0) 0 false

/-- `Sequence::index()`: the stored index clamped to `[0, len-1]`. -/
def seqIndexGet {T : Type} : Tweenable T → ℕ
  | .seq ts i _ _ => min i (ts.length - 1)
  | _ => 0

/-- `Sequence::current().duration()`: the duration of the currently active
child (`none` for non-sequence nodes or an empty sequence). -/
def seqCurrentDuration {T : Type} : Tweenable T → Option ℚ
  | .seq ts i _ _ => (ts.get? (min i (ts.length - 1))).map duration
  | _ => none

/-- The progress of the `i`-th child of a sequence (observer used by the
claims about child states). -/
def seqChildProgress {T : Type} : Tweenable T → ℕ → Option ℚ
  | .seq ts _ _ _, i => (ts.get? i).map progress
  | _, _ => none

/-- The children of a composite node (observer used by the invariant claims). -/
def seqChildren {T : Type} : Tweenable T → List (Tweenable T)
  | .seq ts _ _ _ => ts
  | _ => []

/-- The slice rewind at the end of `Sequence::set_progress`
(`for tween in &mut self.tweens[index + 1..end] { tween.rewind() }`):
rewinds the children at positions `lo ≤ j < hi`. -/
def rewindSliceAux {T : Type} (lo hi : ℕ) : ℕ → List (Tweenable T) → List (Tweenable T)
  | _, [] => []
  | j, t :: ts => (if lo ≤ j ∧ j < hi then rewind t else t) :: rewindSliceAux lo hi (j + 1) ts

def rewindSlice {T : Type} (lo hi : ℕ) (ts : List (Tweenable T)) : List (Tweenable T) :=
  rewindSliceAux lo hi 0 ts

mutual

/-- `Tweenable::set_progress` for the four node kinds. For a `Tween` it
delegates to the clock; `Sequence::set_progress` has the two boundary fast
paths and the scanning loop; `Tracks::set_progress` clamps and distributes
`elapsed / child.duration` to every child; `Delay::set_progress` resets and
re-ticks its timer. -/
def setProgress {T : Type} : Tweenable T → ℚ → Tweenable T
  | .tween t, p => .tween { t with clock := t.clock.setProgress p }
  | .seq ts idx dur elapsed, p =>
    if p < eps then rewind (.seq ts idx dur elapsed)
    else if 1 - eps < p then .seq ts ts.length dur dur
    else
      let elapsed' := dur * rustClamp p 0 1
      let r := seqSetProgressAux idx 0 elapsed' ts
      let ts' :=
        if r.2 < idx then rewindSlice (r.2 + 1) (min (idx + 1) r.1.length) r.1
        else r.1
      .seq ts' r.2 dur elapsed'
  | .tracks ts dur _ c, p =>
    let elapsed' := dur * rustClamp p 0 1
    .tracks (tracksSetProgressAux elapsed' ts) dur elapsed' c
  | .delay dl, p =>
    .delay { dl with timer := (dl.timer.reset).tick (dl.timer.duration * p) }

/-- The scanning loop of `Sequence::set_progress`: walks the children with
the running position `i` and the remaining time `delta`, fully completing
children whose whole span lies before the target time (`set_progress(1)`
only from the previously active index onward), setting partial progress on
the child the target time falls into, and treating a child within `eps` of
its boundary as completed. Returns the transformed children and the new
index. -/
def seqSetProgressAux {T : Type} (oldIndex : ℕ) :
    ℕ → ℚ → List (Tweenable T) → List (Tweenable T) × ℕ
  | i, _, [] => ([], i)
  | i, delta, t :: ts =>
    let tweenDuration := Tweenable.duration t
    let tweenDelta := tweenDuration - delta
    if tweenDelta < -eps then
      let t' := if oldIndex ≤ i then setProgress t 1 else t
      let r := seqSetProgressAux oldIndex (i + 1) (delta - tweenDuration) ts
      (t' :: r.1, r.2)
    else if eps < tweenDelta then
      (setProgress t (tweenDelta / tweenDuration) :: ts, i)
    else
      let t' := if oldIndex ≤ i then setProgress t 1 else t
      (t' :: ts, i + 1)

/-- The child loop of `Tracks::set_progress`: each child receives
`elapsed / child.duration` as its own ratio. -/
def tracksSetProgressAux {T : Type} (elapsed : ℚ) :
    List (Tweenable T) → List (Tweenable T)
  | [] => []
  | t :: ts => setProgress t (elapsed / Tweenable.duration t) :: tracksSetProgressAux elapsed ts

end

mutual

/-- `Tweenable::set_speed` for the four node kinds: a `Tween` rescales its
clock duration and reapplies the stored progress; composites forward to
every child without touching their own cached duration; a `Delay` rescales
its timer duration. -/
def setSpeed {T : Type} : Tweenable T → ℚ → Tweenable T
  | .tween t, s => .tween (t.setSpeed s)
  | .seq ts idx dur elapsed, s => .seq (setSpeedList ts s) idx dur elapsed
  | .tracks ts dur elapsed c, s => .tracks (setSpeedList ts s) dur elapsed c
  | .delay dl, s => .delay { dl with timer := dl.timer.setDuration (dl.original * s) }

def setSpeedList {T : Type} : List (Tweenable T) → ℚ → List (Tweenable T)
  | [], _ => []
  | t :: ts, s => setSpeed t s :: setSpeedList ts s

end

/-- The resulting node and play state of `tick` do not depend on the
incoming target value; only the outgoing target does. -/
theorem tick_target_irrelevant {T : Type} :
    ∀ x : Tweenable T, ∀ (delta : ℚ) (t1 t2 : T) (entity : ℕ),
      (tick x delta t1 entity).1 = (tick x delta t2 entity).1 ∧
      (tick x delta t1 entity).2.state = (tick x delta t2 entity).2.state := by
  have keySeq : ∀ (ts : List (Tweenable T)),
      (∀ x ∈ ts, ∀ (delta : ℚ) (u1 u2 : T) (entity : ℕ),
        (tick x delta u1 entity).1 = (tick x delta u2 entity).1 ∧
        (tick x delta u1 entity).2.state = (tick x delta u2 entity).2.state) →
      ∀ (idx : ℕ) (delta : ℚ) (u1 u2 : T) (entity : ℕ),
        (seqTickAux delta u1 entity idx ts).tweens
          = (seqTickAux delta u2 entity idx ts).tweens ∧
        (seqTickAux delta u1 entity idx ts).advanced
          = (seqTickAux delta u2 entity idx ts).advanced ∧
        (seqTickAux delta u1 entity idx ts).out.state
          = (seqTickAux delta u2 entity idx ts).out.state := by
    intro ts
    induction ts with
    | nil =>
      intro _ idx delta u1 u2 entity
      cases idx <;> exact ⟨rfl, rfl, rfl⟩
    | cons hd tl ih =>
      intro hch idx delta u1 u2 entity
      have hhd := hch hd (List.mem_cons_self hd tl)
      have htl := fun x hx => hch x (List.mem_cons_of_mem hd hx)
      cases idx with
      | succ n =>
        obtain ⟨h1, h2, h3⟩ := ih htl n delta u1 u2 entity
        simp only [seqTickAux]
        exact ⟨by rw [h1], h2, h3⟩
      | zero =>
        obtain ⟨hnode, hstate⟩ := hhd delta u1 u2 entity
        simp only [seqTickAux]
        rw [hnode, hstate]
        by_cases hs : (tick hd delta u2 entity).2.state ≠ .completed
        · rw [if_pos hs, if_pos hs]
          exact ⟨rfl, rfl, hstate⟩
        · rw [if_neg hs, if_neg hs]
          by_cases hemp : tl.isEmpty
          · rw [if_pos hemp, if_pos hemp]
            exact ⟨rfl, rfl, hstate⟩
          · rw [if_neg hemp, if_neg hemp]
            split_ifs with hc
            · refine ⟨?_, ?_, ?_⟩
              · exact congrArg (List.cons _) (ih htl 0 _ _ _ entity).1
              · exact congrArg (· + 1) (ih htl 0 _ _ _ entity).2.1
              · exact (ih htl 0 _ _ _ entity).2.2
            · exact ⟨rfl, rfl, rfl⟩
  have keyTracks : ∀ (ts : List (Tweenable T)),
      (∀ x ∈ ts, ∀ (delta : ℚ) (u1 u2 : T) (entity : ℕ),
        (tick x delta u1 entity).1 = (tick x delta u2 entity).1 ∧
        (tick x delta u1 entity).2.state = (tick x delta u2 entity).2.state) →
      ∀ (delta : ℚ) (u1 u2 : T) (entity : ℕ),
        (tracksTickAux delta entity ts u1).tracks
          = (tracksTickAux delta entity ts u2).tracks ∧
        (tracksTickAux delta entity ts u1).out.state
          = (tracksTickAux delta entity ts u2).out.state := by
    intro ts
    induction ts with
    | nil => intro _ delta u1 u2 entity; exact ⟨rfl, rfl⟩
    | cons hd tl ih =>
      intro hch delta u1 u2 entity
      obtain ⟨hnode, hstate⟩ := hch hd (List.mem_cons_self hd tl) delta u1 u2 entity
      obtain ⟨h1, h2⟩ := ih (fun x hx => hch x (List.mem_cons_of_mem hd hx)) delta
        (tick hd delta u1 entity).2.target (tick hd delta u2 entity).2.target entity
      simp only [tracksTickAux]
      exact ⟨by rw [hnode, h1], by rw [hstate, h2]⟩
  intro x
  induction x using inductionOn with
  | htween t =>
    intro delta t1 t2 entity
    simp only [tick]
    unfold Tween.tick
    split_ifs <;> exact ⟨rfl, rfl⟩
  | hseq ts i d e hch =>
    intro delta t1 t2 entity
    obtain ⟨h1, h2, h3⟩ := keySeq ts hch i delta t1 t2 entity
    simp only [tick]
    exact ⟨by rw [h1, h2], h3⟩
  | htracks ts d e c hch =>
    intro delta t1 t2 entity
    obtain ⟨h1, h2⟩ := keyTracks ts hch delta t1 t2 entity
    simp only [tick]
    exact ⟨by rw [h1, h2], h2⟩
  | hdelay d =>
    intro delta t1 t2 entity
    exact ⟨rfl, rfl⟩

/-- The aggregate state of the `Tracks::tick` child loop is `Active` iff
some child's tick reports `Active` (each child receiving the same delta). -/
theorem tracksTickAux_state_active_iff {T : Type} (delta : ℚ) (entity : ℕ) :
    ∀ (ts : List (Tweenable T)) (target : T),
      (tracksTickAux delta entity ts target).out.state = .active ↔
        ∃ x ∈ ts, (tick x delta target entity).2.state = .active := by
  intro ts
  induction ts with
  | nil =>
    intro target
    simp [tracksTickAux]
  | cons hd tl ih =>
    intro target
    simp only [tracksTickAux]
    by_cases h : (tick hd delta target entity).2.state = .active
    · simp only [if_pos h]
      constructor
      · intro
        exact ⟨hd, List.mem_cons_self hd tl, h⟩
      · intro
        trivial
    · rw [if_neg h]
      constructor
      · intro hrest
        obtain ⟨x, hx, hxs⟩ := (ih _).mp hrest
        refine ⟨x, List.mem_cons_of_mem hd hx, ?_⟩
        rw [(tick_target_irrelevant x delta target
          (tick hd delta target entity).2.target entity).2]
        exact hxs
      · rintro ⟨x, hx, hxs⟩
        rcases List.mem_cons.mp hx with rfl | hx'
        · exact absurd hxs h
        · refine (ih _).mpr ⟨x, hx', ?_⟩
          rw [← (tick_target_irrelevant x delta target
            (tick hd delta target entity).2.target entity).2]
          exact hxs

/-- `tick` never changes a node's duration (each node kind reads a stored
duration that `tick` copies unchanged). -/
theorem duration_tick {T : Type} (x : Tweenable T) (delta : ℚ) (target : T) (entity : ℕ) :
    duration (tick x delta target entity).1 = duration x := by
  cases x with
  | tween t =>
    simp only [tick, duration]
    unfold Tween.tick
    split_ifs with h
    · rfl
    · show (t.clock.tick delta).1.duration = t.clock.duration
      simp only [AnimClock.tick]
      split_ifs <;> rfl
  | seq ts i d e => rfl
  | tracks ts d e c => rfl
  | delay dl => rfl

/-- `rewind` never changes a node's duration. -/
theorem duration_rewind {T : Type} (x : Tweenable T) :
    duration (rewind x) = duration x := by
  cases x <;> rfl

/-- `set_progress` never changes a node's duration. -/
theorem duration_setProgress {T : Type} (x : Tweenable T) (p : ℚ) :
    duration (setProgress x p) = duration x := by
  cases x with
  | tween t => rfl
  | seq ts i d e =>
    simp only [setProgress]
    split_ifs with h1 h2 h3
    · exact duration_rewind _
    · rfl
    · rfl
    · rfl
  | tracks ts d e c => rfl
  | delay dl => rfl

/-- Child durations across the `Sequence::tick` loop. -/
theorem seqTickAux_map_duration {T : Type} :
    ∀ (ts : List (Tweenable T)) (idx : ℕ) (delta : ℚ) (target : T) (entity : ℕ),
      ((seqTickAux delta target entity idx ts).tweens).map duration = ts.map duration := by
  intro ts
  induction ts with
  | nil =>
    intro idx delta target entity
    cases idx <;> rfl
  | cons hd tl ih =>
    intro idx delta target entity
    cases idx with
    | succ n =>
      simp only [seqTickAux, List.map_cons]
      rw [ih n delta target entity]
    | zero =>
      simp only [seqTickAux]
      split_ifs with h1 h2 h3 <;> simp only [List.map_cons] <;>
        rw [duration_tick] <;> try rw [ih]


/-- Child durations across the `Tracks::tick` loop. -/
theorem tracksTickAux_map_duration {T : Type} :
    ∀ (ts : List (Tweenable T)) (delta : ℚ) (target : T) (entity : ℕ),
      ((tracksTickAux delta entity ts target).tracks).map duration = ts.map duration := by
  intro ts
  induction ts with
  | nil => intro delta target entity; rfl
  | cons hd tl ih =>
    intro delta target entity
    simp only [tracksTickAux, List.map_cons]
    rw [duration_tick, ih]

/-- Child durations across `rewind` of a composite. -/
theorem rewindList_map_duration {T : Type} :
    ∀ ts : List (Tweenable T), (rewindList ts).map duration = ts.map duration := by
  intro ts
  induction ts with
  | nil => rfl
  | cons hd tl ih =>
    simp only [rewindList, List.map_cons]
    rw [duration_rewind, ih]

theorem rewindList_length {T : Type} (ts : List (Tweenable T)) :
    (rewindList ts).length = ts.length := by
  have h := congrArg List.length (rewindList_map_duration ts)
  simpa using h

/-- Child durations across the slice rewind of `Sequence::set_progress`. -/
theorem rewindSliceAux_map_duration {T : Type} (lo hi : ℕ) :
    ∀ (j : ℕ) (ts : List (Tweenable T)),
      (rewindSliceAux lo hi j ts).map duration = ts.map duration := by
  intro j ts
  induction ts generalizing j with
  | nil => rfl
  | cons hd tl ih =>
    simp only [rewindSliceAux, List.map_cons]
    rw [ih]
    congr 1
    split_ifs with h
    · exact duration_rewind hd
    · rfl

/-- Child durations across the `Sequence::set_progress` scan. -/
theorem seqSetProgressAux_map_duration {T : Type} (oldIndex : ℕ) :
    ∀ (ts : List (Tweenable T)) (i : ℕ) (delta : ℚ),
      ((seqSetProgressAux oldIndex i delta ts).1).map duration = ts.map duration := by
  intro ts
  induction ts with
  | nil => intro i delta; rfl
  | cons hd tl ih =>
    intro i delta
    simp only [seqSetProgressAux]
    split_ifs <;> simp only [List.map_cons, duration_setProgress, ih]

/-- Child durations across the `Tracks::set_progress` loop. -/
theorem tracksSetProgressAux_map_duration {T : Type} (elapsed : ℚ) :
    ∀ ts : List (Tweenable T),
      (tracksSetProgressAux elapsed ts).map duration = ts.map duration := by
  intro ts
  induction ts with
  | nil => rfl
  | cons hd tl ih =>
    simp only [tracksSetProgressAux, List.map_cons]
    rw [duration_setProgress, ih]

/-- The `completed` latch of a `Tracks` node (observer used by the claims). -/
def tracksCompletedLatch {T : Type} : Tweenable T → Bool
  | .tracks _ _ _ c => c
  | _ => false

/-- The children of a `Tracks` node (observer used by the claims). -/
def tracksChildren {T : Type} : Tweenable T → List (Tweenable T)
  | .tracks ts _ _ _ => ts
  | _ => []

/-- The `Tracks::tick` loop ticks every child with the same full delta:
the resulting children are exactly the original children each ticked with
the incoming delta (the threaded target does not influence the resulting
nodes). -/
theorem tracksTickAux_tracks_map {T : Type} (delta : ℚ) (entity : ℕ) :
    ∀ (ts : List (Tweenable T)) (target : T),
      (tracksTickAux delta entity ts target).tracks
        = ts.map fun x => (tick x delta target entity).1 := by
  intro ts
  induction ts with
  | nil => intro target; rfl
  | cons hd tl ih =>
    intro target
    simp only [tracksTickAux, List.map_cons]
    rw [ih ((tick hd delta target entity).2.target)]
    congr 1
    exact List.map_congr_left fun x _ =>
      (tick_target_irrelevant x delta (tick hd delta target entity).2.target target entity).1

end Tweenable

-- Demo nodes for concrete evaluations: the two-tween sequence of the spec
-- (A: position 0→1 over 1s, B: rotation 0°→90° over 1s), target = (pos, rot).
def demoTweenA : Tween (ℚ × ℚ) := Tween.new id .once 1 (fun p r => (r, p.2))
def demoTweenB : Tween (ℚ × ℚ) := Tween.new id .once 1 (fun p r => (p.1, 90 * r))
def demoSeqAB : Tweenable (ℚ × ℚ) :=
  Tweenable.seqThen (Tweenable.seqThen Tweenable.seqWithCapacity (.tween demoTweenA))
    (.tween demoTweenB)

example : demoSeqAB = .seq [.tween demoTweenA, .tween demoTweenB] 0 2 0 := by
  norm_num [demoSeqAB, Tweenable.seqThen, Tweenable.seqWithCapacity, Tweenable.duration,
    demoTweenA, demoTweenB, Tween.new, AnimClock.new]

example :
    (Tweenable.tick demoSeqAB (13/10) (0, 0) 0).2.state = .active ∧
    (Tweenable.tick demoSeqAB (13/10) (0, 0) 0).2.target = (1, 27) := by
  norm_num [demoSeqAB, Tweenable.seqThen, Tweenable.seqWithCapacity, Tweenable.tick,
    Tweenable.seqTickAux, Tween.tick, Tween.isLooping, Tween.new, AnimClock.new,
    AnimClock.tick, AnimClock.completed, AnimClock.progress, Tweenable.progress,
    Tweenable.timesCompleted, Tweenable.duration, fmod, eps,
    TweeningType.isPingPongKind, TweeningDirection.isBackward, demoTweenA, demoTweenB]
  exact ⟨rfl, rfl⟩

/-! ## Claims -/

/-- **C3**: For every clock and every delta ≥ 0, `tick(delta)` adds the
delta to `elapsed` and: returns 0 if `elapsed` is still short of
`duration`; if looping, returns `⌊elapsed/duration + ε⌋` with `ε = 1e-5`
(a value ≥ 1, and ≥ 2 when the delta spanned at least two full periods —
never clamped to 1) and sets `elapsed` to `elapsed mod duration`; if
non-looping, clamps `elapsed` to `duration` and returns exactly 1 on the
crossing tick. -/
theorem c3_clock_tick_spec (c : AnimClock) (delta : ℚ)
    (hdur : 0 < c.duration) (hdelta : 0 ≤ delta) :
    (c.elapsed + delta < c.duration →
      (c.tick delta).1.elapsed = c.elapsed + delta ∧ (c.tick delta).2 = 0) ∧
    (c.duration ≤ c.elapsed + delta → c.isLooping = true →
      (((c.tick delta).2 : ℤ) = ⌊(c.elapsed + delta) / c.duration + eps⌋ ∧
        (c.tick delta).1.elapsed
          = (c.elapsed + delta) - c.duration * ⌊(c.elapsed + delta) / c.duration⌋) ∧
      1 ≤ (c.tick delta).2 ∧
      (2 * c.duration ≤ c.elapsed + delta → 2 ≤ (c.tick delta).2)) ∧
    (c.duration ≤ c.elapsed + delta → c.isLooping = false →
      (c.tick delta).1.elapsed = c.duration ∧ (c.tick delta).2 = 1) := by
  unfold AnimClock.tick
  refine ⟨fun hlt => ?_, fun hge hloop => ?_, fun hge hnoloop => ?_⟩
  · rw [if_pos hlt]
    exact ⟨rfl, rfl⟩
  · rw [if_neg (not_lt.mpr hge), if_pos hloop]
    have hx : (1 : ℚ) ≤ (c.elapsed + delta) / c.duration := (one_le_div hdur).mpr hge
    have hfl : (1 : ℤ) ≤ ⌊(c.elapsed + delta) / c.duration + eps⌋ := by
      apply Int.le_floor.mpr
      push_cast
      have : (0 : ℚ) < eps := by norm_num [eps]
      linarith
    have htn : (((⌊(c.elapsed + delta) / c.duration + eps⌋).toNat : ℤ))
        = ⌊(c.elapsed + delta) / c.duration + eps⌋ :=
      Int.toNat_of_nonneg (le_trans (by norm_num) hfl)
    refine ⟨⟨htn, ?_⟩, ?_, fun h2 => ?_⟩
    · unfold fmod
      ring
    · omega
    · have hx2 : (2 : ℚ) ≤ (c.elapsed + delta) / c.duration := by
        rw [le_div_iff₀ hdur]
        linarith
      have hfl2 : (2 : ℤ) ≤ ⌊(c.elapsed + delta) / c.duration + eps⌋ := by
        apply Int.le_floor.mpr
        push_cast
        have : (0 : ℚ) < eps := by norm_num [eps]
        linarith
      omega
  · rw [if_neg (not_lt.mpr hge), if_neg (by simp [hnoloop])]
    exact ⟨rfl, rfl⟩

/-- Witness for C3 at the concrete clock `⟨elapsed 0, duration 1, looping⟩`
ticked by `5/2`. -/
theorem c3_clock_tick_spec_witness :
    (0 : ℚ) < (AnimClock.new 1 true).duration ∧ (0 : ℚ) ≤ 5/2 ∧
    (1 ≤ ((AnimClock.new 1 true).tick (5/2)).2 ∧
      2 ≤ ((AnimClock.new 1 true).tick (5/2)).2) := by
  have h := c3_clock_tick_spec (AnimClock.new 1 true) (5/2)
    (by norm_num [AnimClock.new]) (by norm_num)
  refine ⟨by norm_num [AnimClock.new], by norm_num, ?_, ?_⟩
  · exact (h.2.1 (by norm_num [AnimClock.new]) (by norm_num [AnimClock.new])).2.1
  · exact (h.2.1 (by norm_num [AnimClock.new]) (by norm_num [AnimClock.new])).2.2
      (by norm_num [AnimClock.new])

/-- **C6, counterexample**: the claim says `set_progress` accepts any real
ratio, "including negatives as implicit wraps consistent with modulo
semantics", with no abort. On a looping clock `f32::fract` keeps the sign,
so ratio `-1/2` yields the negative factor `-1/2` (not the modulo wrap
`1/2`) and `Duration::mul_f32` panics on it. -/
theorem c6_counterexample_negative_ratio_aborts :
    AnimClock.setProgressAborts (AnimClock.new 1 true) (-1/2) ∧
    rustFract (-1/2) = -(1/2) := by
  have hrf : rustFract ((-1)/2 : ℚ) = -(1/2) := by
    have h : ⌈((-1)/2 : ℚ)⌉ = 0 := by norm_num
    unfold rustFract
    rw [if_neg (by norm_num), h]
    norm_num
  constructor
  · show rustFract ((-1)/2) < 0
    rw [hrf]
    norm_num
  · exact hrf

/-- **C6, amended**: engine clock operations are total on their valid
domain: `tick` with delta ≥ 0 keeps `elapsed` in range; `set_progress` on a
non-looping clock clamps any real ratio to [0,1] without aborting; on a
looping clock it is total for ratio ≥ 0, where the fractional part agrees
with modulo semantics (`ratio − ⌊ratio⌋`). Negative non-integral ratios on
looping clocks abort (see the counterexample). -/
theorem c6_ops_total_amended (c : AnimClock) (delta ratio : ℚ)
    (he : 0 ≤ c.elapsed) (hdur : 0 < c.duration) (hdelta : 0 ≤ delta) :
    (0 ≤ (c.tick delta).1.elapsed ∧
      (c.tick delta).1.elapsed ≤ max c.duration (c.elapsed + delta)) ∧
    (c.isLooping = false →
      ¬ c.setProgressAborts ratio ∧
      (c.setProgress ratio).elapsed = c.duration * rustClamp ratio 0 1) ∧
    (c.isLooping = true → 0 ≤ ratio →
      ¬ c.setProgressAborts ratio ∧
      (c.setProgress ratio).elapsed = c.duration * (ratio - ⌊ratio⌋)) := by
  have hclamp : (0 : ℚ) ≤ rustClamp ratio 0 1 := by
    unfold rustClamp
    exact le_min (le_max_right ratio 0) (by norm_num)
  have hfactor : ∀ b : Bool, ∀ c' : AnimClock, c'.isLooping = b →
      ((if c'.isLooping = true then rustFract ratio else rustClamp ratio 0 1)
        = if b = true then rustFract ratio else rustClamp ratio 0 1) := by
    intro b c' hb
    rw [hb]
  refine ⟨?_, fun hnl => ?_, fun hl hr => ?_⟩
  · rcases lt_or_le (c.elapsed + delta) c.duration with h1 | h1
    · have e1 : (c.tick delta).1.elapsed = c.elapsed + delta := by
        unfold AnimClock.tick
        rw [if_pos h1]
      rw [e1]
      exact ⟨by linarith, le_max_right _ _⟩
    · cases hlp : c.isLooping
      · have e1 : (c.tick delta).1.elapsed = c.duration := by
          unfold AnimClock.tick
          rw [if_neg (not_lt.mpr h1), if_neg (by rw [hlp]; exact Bool.false_ne_true)]
        rw [e1]
        exact ⟨hdur.le, le_max_of_le_left le_rfl⟩
      · have e1 : (c.tick delta).1.elapsed = fmod (c.elapsed + delta) c.duration := by
          unfold AnimClock.tick
          rw [if_neg (not_lt.mpr h1), if_pos hlp]
        rw [e1]
        exact ⟨fmod_nonneg _ _ hdur, le_max_of_le_left (fmod_lt _ _ hdur).le⟩
  · have hcond : (if c.isLooping = true then rustFract ratio else rustClamp ratio 0 1)
        = rustClamp ratio 0 1 := by
      rw [hfactor false c hnl]
      exact if_neg Bool.false_ne_true
    constructor
    · unfold AnimClock.setProgressAborts
      rw [hcond]
      exact not_lt.mpr hclamp
    · show c.duration * (if c.isLooping = true then rustFract ratio
        else rustClamp ratio 0 1) = c.duration * rustClamp ratio 0 1
      rw [hcond]
  · have hfr : rustFract ratio = ratio - ⌊ratio⌋ := by
      unfold rustFract
      rw [if_pos hr]
    have hfr0 : (0 : ℚ) ≤ rustFract ratio := by
      rw [hfr]
      exact Int.fract_nonneg ratio
    have hcond : (if c.isLooping = true then rustFract ratio else rustClamp ratio 0 1)
        = rustFract ratio := by
      rw [hfactor true c hl]
      exact if_pos rfl
    constructor
    · unfold AnimClock.setProgressAborts
      rw [hcond]
      exact not_lt.mpr hfr0
    · show c.duration * (if c.isLooping = true then rustFract ratio
        else rustClamp ratio 0 1) = c.duration * (ratio - ⌊ratio⌋)
      rw [hcond, hfr]

/-- Witness for C6 (amended) at a non-looping clock with ratio `-1/2` and a
looping clock with ratio `5/2`. -/
theorem c6_ops_total_amended_witness :
    (¬ AnimClock.setProgressAborts (AnimClock.new 1 false) (-1/2)) ∧
    (¬ AnimClock.setProgressAborts (AnimClock.new 1 true) (5/2)) := by
  have h1 := c6_ops_total_amended (AnimClock.new 1 false) 0 (-1/2)
    (by norm_num [AnimClock.new]) (by norm_num [AnimClock.new]) le_rfl
  have h2 := c6_ops_total_amended (AnimClock.new 1 true) 0 (5/2)
    (by norm_num [AnimClock.new]) (by norm_num [AnimClock.new]) le_rfl
  exact ⟨(h1.2.1 (by norm_num [AnimClock.new])).1,
    (h2.2.2 (by norm_num [AnimClock.new]) (by norm_num)).1⟩

-- A 1-second `Loop` tween with the completed event enabled (user_data 42)
-- and a completion callback set, used by the C1 theorem.
def demoLoopTween : Tween ℚ :=
  { Tween.new id .loop 1 (fun _ r => r) with
    eventData := some 42, hasOnCompleted := true }

/-- **C1**: code bug evidence. A single tick of `5/2` seconds on a
1-second `Loop` tween makes the clock report `c = 2` completions (and
`times_completed` grows by 2), yet exactly one `TweenCompleted` event is
sent and the callback is invoked exactly once — the notification block of
`Tween::tick` runs once per tick with `c > 0`, not once per completion as
the spec (and the `TweenCompleted` documentation, which promises one event
per iteration) requires. -/
theorem c1_completion_notification_once_per_tick :
    (demoLoopTween.tick (5/2) 0 7).1.timesCompleted = 2 ∧
    (demoLoopTween.tick (5/2) 0 7).2.events = [⟨7, 42⟩] ∧
    (demoLoopTween.tick (5/2) 0 7).2.callbacks = 1 := by
  have h1 : ⌊(5/2 + eps : ℚ)⌋ = 2 := by norm_num [eps]
  have h2 : ⌊(5/2 : ℚ) / 1⌋ = 2 := by norm_num
  refine ⟨?_, ?_, ?_⟩ <;>
    · norm_num [demoLoopTween, Tween.tick, Tween.isLooping, Tween.new, AnimClock.new,
        AnimClock.tick, AnimClock.completed, AnimClock.progress, fmod,
        TweeningType.isPingPongKind, TweeningDirection.isBackward, h1, h2]
      decide

-- A leaf tween seeked to the middle of its span (`set_progress(1/2)`),
-- used by the C8 theorems.
def demoTweenHalf : Tween ℚ :=
  { Tween.new id .once 1 (fun _ r => r) with
    clock := (Tween.new (T := ℚ) id .once 1 (fun _ r => r)).clock.setProgress (1/2) }

/-- **C8, counterexample**: the claim quantifies over every speed value,
but `set_speed(0)` collapses the clock duration to zero and the reapplied
progress is lost: a tween at progress `1/2` reports progress `0` after
`set_speed(0)` (in Rust the `0/0` division makes it NaN; either way it is
no longer `1/2`). -/
theorem c8_counterexample_speed_zero :
    demoTweenHalf.clock.progress = 1/2 ∧
    (demoTweenHalf.setSpeed 0).clock.progress = 0 ∧
    (demoTweenHalf.setSpeed 0).clock.progress ≠ demoTweenHalf.clock.progress := by
  refine ⟨?_, ?_, ?_⟩ <;>
    norm_num [demoTweenHalf, Tween.setSpeed, Tween.new, AnimClock.new,
      AnimClock.setProgress, AnimClock.progress, rustClamp, rustFract]

/-- **C8, amended**: for every leaf tween whose clock satisfies the
reachable-state invariant (`0 ≤ elapsed ≤ duration`, strict or zero when
looping, positive original duration) and every speed > 0, `set_speed`
sets the clock duration to `original × speed` and reapplies the stored
progress ratio via `set_progress`, so `progress()` is unchanged. -/
theorem c8_setSpeed_preserves_progress {T : Type} (t : Tween T) (speed : ℚ)
    (hs : 0 < speed) (ho : 0 < t.clock.original)
    (he0 : 0 ≤ t.clock.elapsed) (he1 : t.clock.elapsed ≤ t.clock.duration)
    (hl : t.clock.isLooping = true →
      t.clock.elapsed < t.clock.duration ∨ t.clock.elapsed = 0) :
    (t.setSpeed speed).clock.duration = t.clock.original * speed ∧
    (t.setSpeed speed).clock.progress = t.clock.progress := by
  have hd' : (0 : ℚ) < t.clock.original * speed := mul_pos ho hs
  have hdge : (0 : ℚ) ≤ t.clock.duration := le_trans he0 he1
  refine ⟨rfl, ?_⟩
  -- unfold `set_speed` to the explicit clock it builds
  have hel : (t.setSpeed speed).clock.elapsed
      = (t.clock.original * speed) *
        (if t.clock.isLooping = true
          then rustFract (t.clock.elapsed / t.clock.duration)
          else rustClamp (t.clock.elapsed / t.clock.duration) 0 1) := rfl
  have hdd : (t.setSpeed speed).clock.duration = t.clock.original * speed := rfl
  unfold AnimClock.progress
  rw [hel, hdd]
  -- the stored progress ratio lies in [0,1], strictly below 1 if looping
  set p := t.clock.elapsed / t.clock.duration with hp
  have hp0 : 0 ≤ p := div_nonneg he0 hdge
  have hp1 : p ≤ 1 := by
    rcases eq_or_lt_of_le hdge with hdz | hdpos
    · rw [hp, ← hdz, div_zero]
      norm_num
    · exact (div_le_one hdpos).mpr he1
  have hplt : t.clock.isLooping = true → p < 1 := by
    intro hlp
    rcases hl hlp with h | h
    · have hdpos : 0 < t.clock.duration := lt_of_le_of_lt he0 h
      exact (div_lt_one hdpos).mpr h
    · rw [hp, h, zero_div]
      norm_num
  have hred : ∀ q : ℚ, t.clock.original * speed * q / (t.clock.original * speed) = q := by
    intro q
    rw [mul_comm (t.clock.original * speed) q, mul_div_assoc, div_self hd'.ne', mul_one]
  suffices hfc : (if t.clock.isLooping = true then rustFract p else rustClamp p 0 1) = p by
    rw [hfc, hred]
  split_ifs with hlp
  · -- looping: fract p = p because 0 ≤ p < 1
    unfold rustFract
    rw [if_pos hp0, Int.floor_eq_zero_iff.mpr ⟨hp0, hplt hlp⟩]
    norm_num
  · -- non-looping: the clamp is the identity on [0,1]
    unfold rustClamp
    rw [max_eq_left hp0, min_eq_left hp1]

/-- Witness for C8 (amended): the seeked tween keeps progress `1/2` across
`set_speed(2)`. -/
theorem c8_setSpeed_preserves_progress_witness :
    (0 : ℚ) < 2 ∧ (0 : ℚ) < demoTweenHalf.clock.original ∧
    (demoTweenHalf.setSpeed 2).clock.duration = demoTweenHalf.clock.original * 2 ∧
    (demoTweenHalf.setSpeed 2).clock.progress = demoTweenHalf.clock.progress := by
  have h := c8_setSpeed_preserves_progress demoTweenHalf 2 (by norm_num)
    (by norm_num [demoTweenHalf, Tween.new, AnimClock.new, AnimClock.setProgress])
    (by norm_num [demoTweenHalf, Tween.new, AnimClock.new, AnimClock.setProgress,
      rustClamp, rustFract])
    (by norm_num [demoTweenHalf, Tween.new, AnimClock.new, AnimClock.setProgress,
      rustClamp, rustFract])
    (by norm_num [demoTweenHalf, Tween.new, AnimClock.new, AnimClock.setProgress,
      rustClamp, rustFract])
  exact ⟨by norm_num,
    by norm_num [demoTweenHalf, Tween.new, AnimClock.new, AnimClock.setProgress],
    h.1, h.2⟩

-- A leaf `Once` tween seeked exactly to its end (`set_progress(1.0)`),
-- used by the C5 theorems. Its target has never been painted.
def demoTweenAtEnd : Tween ℚ :=
  { Tween.new id .once 1 (fun _ r => r) with
    clock := (Tween.new (T := ℚ) id .once 1 (fun _ r => r)).clock.setProgress 1 }

/-- **C5, counterexample**: the claim says a zero-delta tick reapplies the
current state to the target for every tweenable in every state, including
a completed non-looping leaf tween. But `Tween::tick` returns `Completed`
immediately (without touching the target) when the tween is non-looping
and its clock is already at the end: after `set_progress(1.0)` on a fresh
1-second `Once` tween, `tick(0)` leaves a stale target `5` instead of
repainting it to the lens value `1`. -/
theorem c5_counterexample_no_repaint_at_end :
    (demoTweenAtEnd.tick 0 5 0).2.target = 5 ∧
    (demoTweenAtEnd.tick 0 5 0).2.state = .completed ∧
    demoTweenAtEnd.lens 5 (demoTweenAtEnd.easeFunction demoTweenAtEnd.clock.progress) = 1 ∧
    (5 : ℚ) ≠ 1 := by
  refine ⟨?_, ?_, ?_, by norm_num⟩ <;>
    norm_num [demoTweenAtEnd, Tween.tick, Tween.isLooping, Tween.new, AnimClock.new,
      AnimClock.setProgress, AnimClock.completed, AnimClock.progress, rustClamp]

/-- **C5, amended**: a zero-delta tick never advances time and never emits
events or callbacks; it reapplies the current state to the target (the
lens applied at the current progress and direction), except when a
non-looping tween is already at its end (`clock.completed`), where it
returns `Completed` immediately leaving the target untouched. -/
theorem c5_tick_zero_amended {T : Type} (t : Tween T) (target : T) (entity : ℕ) :
    (t.clock.elapsed < t.clock.duration →
      (t.tick 0 target entity).1 = t ∧
      (t.tick 0 target entity).2.target
        = t.lens target (t.easeFunction
            (if t.direction.isBackward then 1 - t.clock.progress else t.clock.progress)) ∧
      (t.tick 0 target entity).2.events = [] ∧
      (t.tick 0 target entity).2.callbacks = 0) ∧
    (t.isLooping = false → t.clock.completed →
      (t.tick 0 target entity).1 = t ∧
      (t.tick 0 target entity).2.target = target ∧
      (t.tick 0 target entity).2.state = .completed ∧
      (t.tick 0 target entity).2.events = [] ∧
      (t.tick 0 target entity).2.callbacks = 0) := by
  constructor
  · intro hlt
    have hclock : t.clock.tick 0 = (t.clock, 0) := by
      unfold AnimClock.tick
      rw [if_pos (by rw [add_zero]; exact hlt)]
      rw [add_zero]
    have hcond : ¬ (t.isLooping = false ∧ t.clock.completed) := by
      rintro ⟨_, hc⟩
      exact absurd hlt (not_lt.mpr hc)
    unfold Tween.tick
    rw [if_neg hcond, hclock]
    refine ⟨?_, ?_, ?_, ?_⟩ <;> simp
  · intro hnl hcomp
    unfold Tween.tick
    rw [if_pos ⟨hnl, hcomp⟩]
    exact ⟨rfl, rfl, rfl, rfl, rfl⟩

/-- Witness for C5 (amended): the active tween at progress `1/2` is
repainted by `tick(0)` without events; the tween seeked to its end returns
`Completed` with the target untouched. -/
theorem c5_tick_zero_amended_witness :
    ((demoTweenHalf.tick 0 3 0).1 = demoTweenHalf ∧
      (demoTweenHalf.tick 0 3 0).2.events = []) ∧
    ((demoTweenAtEnd.tick 0 5 0).2.target = 5 ∧
      (demoTweenAtEnd.tick 0 5 0).2.state = .completed) := by
  have h1 := (c5_tick_zero_amended demoTweenHalf 3 0).1
    (by norm_num [demoTweenHalf, Tween.new, AnimClock.new, AnimClock.setProgress, rustClamp])
  have h2 := (c5_tick_zero_amended demoTweenAtEnd 5 0).2
    (by norm_num [demoTweenAtEnd, Tween.new, Tween.isLooping])
    (by norm_num [demoTweenAtEnd, Tween.new, AnimClock.new, AnimClock.setProgress,
      AnimClock.completed, rustClamp])
  exact ⟨⟨h1.1, h1.2.2.1⟩, ⟨h2.2.1, h2.2.2.1⟩⟩

/-- **C10**: for every tweenable in every state (every reachable sequence
has at least one child), `rewind()` resets `progress()` to 0 and
`times_completed()` to 0, and on a leaf tween it leaves the direction
unchanged. -/
theorem c10_rewind_resets {T : Type} (x : Tweenable T)
    (hseq : ∀ ts i d e, x = Tweenable.seq ts i d e → ts ≠ []) :
    Tweenable.progress (Tweenable.rewind x) = 0 ∧
    Tweenable.timesCompleted (Tweenable.rewind x) = 0 ∧
    (∀ t : Tween T, x = .tween t →
      Tweenable.rewind x = .tween t.rewind ∧ t.rewind.direction = t.direction) := by
  cases x with
  | tween t =>
    refine ⟨?_, rfl, ?_⟩
    · show t.rewind.clock.progress = 0
      show (0 : ℚ) / t.clock.duration = 0
      exact zero_div _
    · intro t' ht
      cases ht
      exact ⟨rfl, rfl⟩
  | seq ts i d e =>
    have hne : ts ≠ [] := hseq ts i d e rfl
    refine ⟨zero_div d, ?_, fun t ht => by cases ht⟩
    show (if 0 = (Tweenable.rewindList ts).length then 1 else 0) = 0
    rw [Tweenable.rewindList_length]
    rw [if_neg fun h => hne (List.eq_nil_of_length_eq_zero h.symm)]
  | tracks ts d e c =>
    exact ⟨zero_div d, rfl, fun t ht => by cases ht⟩
  | delay dl =>
    refine ⟨?_, rfl, fun t ht => by cases ht⟩
    show (0 : ℚ) / dl.timer.duration = 0
    exact zero_div _

/-- Witness for C10 at a mid-playback two-child sequence. -/
theorem c10_rewind_resets_witness :
    Tweenable.progress (Tweenable.rewind
      (Tweenable.seq [.tween demoTweenA, .tween demoTweenB] 1 2 (3/2))) = 0 ∧
    Tweenable.timesCompleted (Tweenable.rewind
      (Tweenable.seq [.tween demoTweenA, .tween demoTweenB] 1 2 (3/2))) = 0 := by
  have h := c10_rewind_resets
    (Tweenable.seq [.tween demoTweenA, .tween demoTweenB] 1 2 (3/2))
    (by intro ts i d e hh; cases hh; simp)
  exact ⟨h.1, h.2.1⟩

-- The two-tween sequence after one and after two large-delta ticks of 1.3s.
def demoSeqABAfter1 : Tweenable (ℚ × ℚ) × TickOut (ℚ × ℚ) :=
  Tweenable.tick demoSeqAB (13/10) (0, 0) 0

def demoSeqABAfter2 : Tweenable (ℚ × ℚ) × TickOut (ℚ × ℚ) :=
  Tweenable.tick demoSeqABAfter1.1 (13/10) demoSeqABAfter1.2.target 0

/-- **C2**: on the sequence of two 1-second `Once` tweens (A: position
0→1, B: rotation 0°→90°), a single 1.3-second tick completes A (pinning it
at its end value, position 1) and cascades the remaining 0.3s into B,
leaving B at progress `3/10` (rotation 27°) with state `Active` and the
sequence index at 1; a second 1.3-second tick returns `Completed` with B
pinned at its end value (rotation 90°). -/
theorem c2_sequence_large_delta_cascade :
    demoSeqABAfter1.2.state = .active ∧
    demoSeqABAfter1.2.target = (1, 27) ∧
    Tweenable.seqChildProgress demoSeqABAfter1.1 0 = some 1 ∧
    Tweenable.seqChildProgress demoSeqABAfter1.1 1 = some (3/10) ∧
    Tweenable.seqIndexGet demoSeqABAfter1.1 = 1 ∧
    demoSeqABAfter2.2.state = .completed ∧
    demoSeqABAfter2.2.target = (1, 90) ∧
    Tweenable.seqChildProgress demoSeqABAfter2.1 1 = some 1 := by
  refine ⟨?_, ?_, ?_, ?_, ?_, ?_, ?_, ?_⟩ <;>
    · norm_num [demoSeqABAfter1, demoSeqABAfter2, demoSeqAB, Tweenable.seqThen,
        Tweenable.seqWithCapacity, Tweenable.tick, Tweenable.seqTickAux,
        Tweenable.seqIndexGet, Tweenable.seqChildProgress, Tween.tick, Tween.isLooping,
        Tween.new, AnimClock.new, AnimClock.tick, AnimClock.completed, AnimClock.progress,
        Tweenable.progress, Tweenable.timesCompleted, Tweenable.duration, fmod, eps,
        TweeningType.isPingPongKind, TweeningDirection.isBackward, demoTweenA, demoTweenB]
      try first
        | exact rfl
        | exact ⟨_, rfl, by show (3/10 : ℚ) / 1 = 3/10; norm_num⟩

-- A sequence holding a single 1-second tween, used by the C4 counterexample.
def demoSeqSingle : Tweenable ℚ :=
  Tweenable.seqFromSingle (.tween (Tween.new id .once 1 (fun _ r => r)))

/-- **C4, counterexample**: `Sequence::set_speed` forwards the speed to
every child (scaling each child's duration through its clock) but never
updates the sequence's cached total `duration`, so the invariant
`duration = Σ child.duration()` breaks: after `set_speed(2)` on a sequence
of one 1-second tween, the cached duration is still 1 while the children's
durations sum to 2. -/
theorem c4_counterexample_setSpeed_breaks_invariant :
    Tweenable.duration demoSeqSingle
      = ((Tweenable.seqChildren demoSeqSingle).map Tweenable.duration).sum ∧
    Tweenable.duration (Tweenable.setSpeed demoSeqSingle 2) = 1 ∧
    ((Tweenable.seqChildren (Tweenable.setSpeed demoSeqSingle 2)).map
      Tweenable.duration).sum = 2 ∧
    (1 : ℚ) ≠ 2 := by
  refine ⟨?_, ?_, ?_, by norm_num⟩ <;>
    norm_num [demoSeqSingle, Tweenable.seqFromSingle, Tweenable.setSpeed,
      Tweenable.setSpeedList, Tweenable.seqChildren, Tweenable.duration,
      Tween.setSpeed, Tween.new, AnimClock.new, AnimClock.setProgress,
      AnimClock.progress, rustClamp, rustFract]

/-- **C4, amended**: the invariant `duration = Σ child.duration()` holds
after construction (`new`, `from_single`, `then`) and is preserved by
`tick`, `set_progress` and `rewind`; it is *not* preserved by `set_speed`
(see the counterexample), which rescales every child's duration without
touching the cached total. -/
theorem c4_seq_duration_invariant_amended {T : Type} :
    (∀ ts : List (Tweenable T),
      Tweenable.duration (Tweenable.seqNew ts) = (ts.map Tweenable.duration).sum) ∧
    (∀ x : Tweenable T,
      Tweenable.duration (Tweenable.seqFromSingle x)
        = ([x].map Tweenable.duration).sum) ∧
    (∀ (ts : List (Tweenable T)) (i : ℕ) (d e : ℚ) (x : Tweenable T),
      d = (ts.map Tweenable.duration).sum →
      Tweenable.duration (Tweenable.seqThen (.seq ts i d e) x)
        = ((ts ++ [x]).map Tweenable.duration).sum) ∧
    (∀ (ts : List (Tweenable T)) (i : ℕ) (d e delta : ℚ) (target : T) (entity : ℕ),
      d = (ts.map Tweenable.duration).sum →
      Tweenable.duration (Tweenable.tick (.seq ts i d e) delta target entity).1 = d ∧
      ((Tweenable.seqChildren (Tweenable.tick (.seq ts i d e) delta target entity).1).map
        Tweenable.duration).sum = d) ∧
    (∀ (ts : List (Tweenable T)) (i : ℕ) (d e p : ℚ),
      d = (ts.map Tweenable.duration).sum →
      Tweenable.duration (Tweenable.setProgress (.seq ts i d e) p) = d ∧
      ((Tweenable.seqChildren (Tweenable.setProgress (.seq ts i d e) p)).map
        Tweenable.duration).sum = d) ∧
    (∀ (ts : List (Tweenable T)) (i : ℕ) (d e : ℚ),
      d = (ts.map Tweenable.duration).sum →
      Tweenable.duration (Tweenable.rewind (.seq ts i d e)) = d ∧
      ((Tweenable.seqChildren (Tweenable.rewind (.seq ts i d e))).map
        Tweenable.duration).sum = d) := by
  refine ⟨fun ts => rfl, fun x => by simp [Tweenable.seqFromSingle, Tweenable.duration],
    fun ts i d e x hd => ?_, fun ts i d e delta target entity hd => ?_,
    fun ts i d e p hd => ?_, fun ts i d e hd => ?_⟩
  · show d + Tweenable.duration x = _
    rw [hd]
    simp
  · constructor
    · simp only [Tweenable.tick]
      rfl
    · simp only [Tweenable.tick, Tweenable.seqChildren]
      rw [Tweenable.seqTickAux_map_duration]
      exact hd.symm
  · constructor
    · rw [Tweenable.duration_setProgress]
      rfl
    · simp only [Tweenable.setProgress]
      split_ifs with h1 h2 h3
      · simp only [Tweenable.rewind, Tweenable.seqChildren]
        rw [Tweenable.rewindList_map_duration]
        exact hd.symm
      · exact hd.symm
      · simp only [Tweenable.seqChildren, Tweenable.rewindSlice]
        rw [Tweenable.rewindSliceAux_map_duration,
          Tweenable.seqSetProgressAux_map_duration]
        exact hd.symm
      · simp only [Tweenable.seqChildren]
        rw [Tweenable.seqSetProgressAux_map_duration]
        exact hd.symm
  · constructor
    · rw [Tweenable.duration_rewind]
      rfl
    · simp only [Tweenable.rewind, Tweenable.seqChildren]
      rw [Tweenable.rewindList_map_duration]
      exact hd.symm

/-- Witness for C4 (amended) on the two-tween demo sequence: the invariant
holds after construction and is preserved by a 1.3-second tick and by a
seek to ratio 1/4. -/
theorem c4_seq_duration_invariant_amended_witness :
    ((2 : ℚ) = ([Tweenable.tween demoTweenA, Tweenable.tween demoTweenB].map
      Tweenable.duration).sum) ∧
    Tweenable.duration (Tweenable.tick
      (.seq [Tweenable.tween demoTweenA, Tweenable.tween demoTweenB] 0 2 0)
      (13/10) ((0 : ℚ), (0 : ℚ)) 0).1 = 2 ∧
    Tweenable.duration (Tweenable.setProgress
      (.seq [Tweenable.tween demoTweenA, Tweenable.tween demoTweenB] 0 2 0) (1/4)) = 2 := by
  have hsum : (2 : ℚ) = ([Tweenable.tween demoTweenA, Tweenable.tween demoTweenB].map
      Tweenable.duration).sum := by
    norm_num [demoTweenA, demoTweenB, Tweenable.duration, Tween.new, AnimClock.new]
  have h := c4_seq_duration_invariant_amended (T := ℚ × ℚ)
  exact ⟨hsum, (h.2.2.2.1 _ 0 2 0 (13/10) (0, 0) 0 hsum).1,
    (h.2.2.2.2.1 _ 0 2 0 (1/4) hsum).1⟩

-- A 0.8-second rotation tween and the parallel `Tracks` of durations
-- 1.0s and 0.8s from the spec, with the five chained 0.2-second ticks.
def demoTrackTweenB : Tween (ℚ × ℚ) := Tween.new id .once (4/5) (fun p r => (p.1, 90 * r))

def demoTracks : Tweenable (ℚ × ℚ) :=
  Tweenable.tracksNew [.tween demoTweenA, .tween demoTrackTweenB]

def demoTracks1 : Tweenable (ℚ × ℚ) × TickOut (ℚ × ℚ) :=
  Tweenable.tick demoTracks (1/5) (0, 0) 0
def demoTracks2 : Tweenable (ℚ × ℚ) × TickOut (ℚ × ℚ) :=
  Tweenable.tick demoTracks1.1 (1/5) demoTracks1.2.target 0
def demoTracks3 : Tweenable (ℚ × ℚ) × TickOut (ℚ × ℚ) :=
  Tweenable.tick demoTracks2.1 (1/5) demoTracks2.2.target 0
def demoTracks4 : Tweenable (ℚ × ℚ) × TickOut (ℚ × ℚ) :=
  Tweenable.tick demoTracks3.1 (1/5) demoTracks3.2.target 0
def demoTracks5 : Tweenable (ℚ × ℚ) × TickOut (ℚ × ℚ) :=
  Tweenable.tick demoTracks4.1 (1/5) demoTracks4.2.target 0

/-- **C9**: for every `Tracks`, `duration()` is the maximum of the
children's durations; `tick` passes the same full delta to every child and
returns `Active` iff some child is `Active` (else `Completed`), storing
the aggregate in the `completed` latch; `times_completed()` is 1 only once
every child has reported `Completed` (the 1.0s/0.8s pair is still 0 after
0.8s, 1 after 1.0s); and `set_progress` with a ratio beyond 1 or below 0
clamps without aborting. -/
theorem c9_tracks_spec :
    (∀ (T : Type) (ts : List (Tweenable T)), ts ≠ [] →
      (∀ x ∈ ts, Tweenable.duration x ≤ Tweenable.duration (Tweenable.tracksNew ts)) ∧
      ∃ x ∈ ts, Tweenable.duration x = Tweenable.duration (Tweenable.tracksNew ts)) ∧
    (∀ (T : Type) (ts : List (Tweenable T)) (d el : ℚ) (c : Bool) (delta : ℚ)
        (target : T) (entity : ℕ),
      Tweenable.tracksCompletedLatch
          (Tweenable.tick (.tracks ts d el c) delta target entity).1
        = decide ((Tweenable.tick (.tracks ts d el c) delta target entity).2.state
            = .completed) ∧
      Tweenable.tracksChildren (Tweenable.tick (.tracks ts d el c) delta target entity).1
        = ts.map (fun x => (Tweenable.tick x delta target entity).1) ∧
      ((Tweenable.tick (.tracks ts d el c) delta target entity).2.state = .active ↔
        ∃ x ∈ ts, (Tweenable.tick x delta target entity).2.state = .active)) ∧
    Tweenable.duration demoTracks = 1 ∧
    demoTracks4.2.state = .active ∧
    Tweenable.timesCompleted demoTracks4.1 = 0 ∧
    demoTracks5.2.state = .completed ∧
    Tweenable.timesCompleted demoTracks5.1 = 1 ∧
    Tweenable.progress (Tweenable.setProgress demoTracks (16/5)) = 1 ∧
    Tweenable.progress (Tweenable.setProgress demoTracks (-(1/2))) = 0 := by
  refine ⟨?_, ?_, ?_, ?_, ?_, ?_, ?_, ?_, ?_⟩
  · intro T ts h
    have hl : ts.map Tweenable.duration ≠ [] := by
      simpa using h
    obtain ⟨m, hm⟩ : ∃ m, (ts.map Tweenable.duration).max? = some m := by
      cases hmx : (ts.map Tweenable.duration).max? with
      | none => exact absurd (List.max?_eq_none_iff.mp hmx) hl
      | some m => exact ⟨m, rfl⟩
    have hdur : Tweenable.duration (Tweenable.tracksNew ts) = m := by
      simp [Tweenable.tracksNew, Tweenable.duration, hm]
    have hub : ∀ b ∈ ts.map Tweenable.duration, b ≤ m :=
      (List.max?_le_iff (fun _ _ _ => max_le_iff) hm).mp le_rfl
    constructor
    · intro x hx
      rw [hdur]
      exact hub _ (List.mem_map_of_mem Tweenable.duration hx)
    · have hmem : m ∈ ts.map Tweenable.duration :=
        List.max?_mem (fun a b => max_choice a b) hm
      obtain ⟨x, hx, hxd⟩ := List.mem_map.mp hmem
      exact ⟨x, hx, by rw [hdur, hxd]⟩
  · intro T ts d el c delta target entity
    refine ⟨?_, ?_, ?_⟩
    · simp only [Tweenable.tick, Tweenable.tracksCompletedLatch]
    · simp only [Tweenable.tick, Tweenable.tracksChildren]
      exact Tweenable.tracksTickAux_tracks_map delta entity ts target
    · simp only [Tweenable.tick]
      exact Tweenable.tracksTickAux_state_active_iff delta entity ts target
  · norm_num [demoTracks, Tweenable.tracksNew, Tweenable.duration, demoTweenA,
      demoTrackTweenB, Tween.new, AnimClock.new]
  all_goals
    · norm_num [demoTracks1, demoTracks2, demoTracks3, demoTracks4, demoTracks5,
        demoTracks, Tweenable.tracksNew, Tweenable.tick, Tweenable.tracksTickAux,
        Tweenable.setProgress, Tweenable.tracksSetProgressAux, Tweenable.progress,
        Tweenable.timesCompleted, Tweenable.duration, Tween.tick, Tween.isLooping,
        Tween.new, AnimClock.new, AnimClock.tick, AnimClock.completed, AnimClock.progress,
        AnimClock.setProgress, rustClamp, rustFract, fmod, eps,
        TweeningType.isPingPongKind, TweeningDirection.isBackward,
        demoTweenA, demoTrackTweenB]
      try decide

/-- Witness for C9 at the concrete 1.0s/0.8s pair of children. -/
theorem c9_tracks_spec_witness :
    ([Tweenable.tween demoTweenA, Tweenable.tween demoTrackTweenB]
      ≠ ([] : List (Tweenable (ℚ × ℚ)))) ∧
    (∀ x ∈ [Tweenable.tween demoTweenA, Tweenable.tween demoTrackTweenB],
      Tweenable.duration x ≤ Tweenable.duration demoTracks) ∧
    (∃ x ∈ [Tweenable.tween demoTweenA, Tweenable.tween demoTrackTweenB],
      Tweenable.duration x = Tweenable.duration demoTracks) := by
  have h := c9_tracks_spec.1 (ℚ × ℚ)
    [.tween demoTweenA, .tween demoTrackTweenB] (by simp)
  exact ⟨by simp, h.1, h.2⟩

-- A 1-shot leaf tween of the given duration and the five-child sequence
-- with durations [0.2, 0.4, 0.6, 0.8, 1.0] (total 3s) from the spec.
def mkOnce (d : ℚ) : Tweenable ℚ := .tween (Tween.new id .once d (fun _ r => r))

def demoSeq5 : Tweenable ℚ :=
  Tweenable.seqNew [mkOnce (1/5), mkOnce (2/5), mkOnce (3/5), mkOnce (4/5), mkOnce 1]

/-- The claim's expected index: the position of the first cumulative
boundary (`0.2, 0.6, 1.2, 2.0, 3.0` seconds) strictly greater than the
absolute target time, clamped to the last child at the end. -/
def c7ExpectedIndex (t : ℚ) : ℕ :=
  if t < 1/5 then 0
  else if t < 3/5 then 1
  else if t < 6/5 then 2
  else if t < 2 then 3
  else 4

theorem demoSeq5_eq :
    demoSeq5 = Tweenable.seq
      [mkOnce (1/5), mkOnce (2/5), mkOnce (3/5), mkOnce (4/5), mkOnce 1] 0 3 0 := by
  norm_num [demoSeq5, Tweenable.seqNew, Tweenable.duration, mkOnce, Tween.new,
    AnimClock.new]

theorem duration_mkOnce (d : ℚ) : Tweenable.duration (mkOnce d) = d := rfl

/-- **C7, counterexample**: the claim promises the first-strict-boundary
index for *every* ratio in [0,1], but `Sequence::set_progress` treats a
child whose remaining span is within `1e-5` seconds of the target time as
completed. At ratio `13333/200000` the target time is `0.199995s`, strictly
below the first boundary `0.2s`, so the claimed index is 0 (child of
duration 0.2s) — yet the code lands on index 1 (child of duration 0.4s). -/
theorem c7_counterexample_epsilon_boundary :
    (0 : ℚ) ≤ 13333/200000 ∧ (13333/200000 : ℚ) ≤ 1 ∧
    3 * (13333/200000 : ℚ) < 1/5 ∧
    Tweenable.seqIndexGet (Tweenable.setProgress demoSeq5 (13333/200000)) = 1 ∧
    Tweenable.seqCurrentDuration (Tweenable.setProgress demoSeq5 (13333/200000))
      = some (2/5) := by
  rw [demoSeq5_eq]
  refine ⟨by norm_num, by norm_num, by norm_num, ?_, ?_⟩ <;>
    norm_num [Tweenable.setProgress, Tweenable.seqSetProgressAux, Tweenable.seqIndexGet,
      Tweenable.seqCurrentDuration, Tweenable.duration, Tweenable.rewindSlice,
      Tweenable.rewindSliceAux, mkOnce, Tween.new, AnimClock.new, AnimClock.setProgress,
      rustClamp, rustFract, eps]

set_option maxHeartbeats 1600000 in
/-- **C7, amended**: for the sequence of children with durations
[0.2, 0.4, 0.6, 0.8, 1.0] seconds and every ratio in [0,1] whose absolute
target time `t = 3·ratio` does not fall within the `1e-5`-second tolerance
band strictly below a cumulative boundary (there the code completes the
boundary child early; see the counterexample), `set_progress(ratio)` lands
on the index of the first cumulative boundary strictly greater than `t`
(clamped to the last child at `t = 3`), and `current().duration()` is that
child's configured duration. -/
theorem c7_seq_setProgress_index_amended (ratio : ℚ) (h0 : 0 ≤ ratio) (h1 : ratio ≤ 1)
    (hband : ∀ b ∈ [(1:ℚ)/5, 3/5, 6/5, 2], ¬(b - eps ≤ 3 * ratio ∧ 3 * ratio < b)) :
    Tweenable.seqIndexGet (Tweenable.setProgress demoSeq5 ratio)
      = c7ExpectedIndex (3 * ratio) ∧
    Tweenable.seqCurrentDuration (Tweenable.setProgress demoSeq5 ratio)
      = [(1:ℚ)/5, 2/5, 3/5, 4/5, 1].get? (c7ExpectedIndex (3 * ratio)) := by
  have hb1 := hband (1/5) (by norm_num)
  have hb2 := hband (3/5) (by norm_num)
  have hb3 := hband (6/5) (by norm_num)
  have hb4 := hband 2 (by norm_num)
  simp only [eps] at hb1 hb2 hb3 hb4
  rw [demoSeq5_eq]
  rcases lt_or_le ratio eps with hA | hA
  · -- near-zero fast path: full rewind, index 0
    have ht : 3 * ratio < 1/5 := by
      simp only [eps] at hA
      linarith
    simp only [Tweenable.setProgress]
    rw [if_pos hA]
    constructor <;>
      norm_num [Tweenable.rewind, Tweenable.rewindList, Tweenable.seqIndexGet,
        Tweenable.seqCurrentDuration, c7ExpectedIndex, ht, Tweenable.duration,
        Tween.rewind, AnimClock.reset, mkOnce, Tween.new, AnimClock.new]
  · rcases lt_or_le (1 - eps) ratio with hB | hB
    · -- near-one fast path: jump to the end, index len (clamped to 4)
      have hA' : ¬ ratio < eps := not_lt.mpr hA
      have ht : ¬ 3 * ratio < 2 := by
        simp only [eps] at hB
        push_neg
        linarith
      have ht1 : ¬ 3 * ratio < 1/5 := by push_neg at ht ⊢; linarith
      have ht2 : ¬ 3 * ratio < 3/5 := by push_neg at ht ⊢; linarith
      have ht3 : ¬ 3 * ratio < 6/5 := by push_neg at ht ⊢; linarith
      simp only [Tweenable.setProgress]
      rw [if_neg hA', if_pos hB]
      constructor <;>
        norm_num [Tweenable.seqIndexGet, Tweenable.seqCurrentDuration, c7ExpectedIndex,
          ht, ht1, ht2, ht3, Tweenable.duration, mkOnce, Tween.new, AnimClock.new]
    · -- main scanning path
      have hA' : ¬ ratio < eps := not_lt.mpr hA
      have hB' : ¬ 1 - eps < ratio := not_lt.mpr hB
      have hAe : (1:ℚ)/100000 ≤ ratio := by simp only [eps] at hA; exact hA
      have hBe : ratio ≤ 1 - 1/100000 := by simp only [eps] at hB; exact hB
      have hclamp : rustClamp ratio 0 1 = ratio := by
        unfold rustClamp
        rw [max_eq_left h0, min_eq_left h1]
      simp only [Tweenable.setProgress]
      rw [if_neg hA', if_neg hB', hclamp, if_neg (Nat.not_lt_zero _)]
      have hmap : ((Tweenable.seqSetProgressAux 0 0 (3 * ratio)
          [mkOnce (1/5), mkOnce (2/5), mkOnce (3/5), mkOnce (4/5), mkOnce 1]).1).map
            Tweenable.duration = [1/5, 2/5, 3/5, 4/5, 1] := by
        rw [Tweenable.seqSetProgressAux_map_duration]
        norm_num [duration_mkOnce]
      have hlen : ((Tweenable.seqSetProgressAux 0 0 (3 * ratio)
          [mkOnce (1/5), mkOnce (2/5), mkOnce (3/5), mkOnce (4/5), mkOnce 1]).1).length
            = 5 := by
        have hc := congrArg List.length hmap
        simpa using hc
      rcases lt_or_le (3 * ratio) (1/5) with hc1 | hc1
      · -- strictly inside child 1
        have hx : 3 * ratio < 1/5 - 1/100000 := by
          rcases lt_or_le (3 * ratio) (1/5 - 1/100000) with h | h
          · exact h
          · exact absurd ⟨h, hc1⟩ hb1
        have hexp : c7ExpectedIndex (3 * ratio) = 0 := by
          rw [c7ExpectedIndex, if_pos hc1]
        have hidx : (Tweenable.seqSetProgressAux 0 0 (3 * ratio)
            [mkOnce (1/5), mkOnce (2/5), mkOnce (3/5), mkOnce (4/5), mkOnce 1]).2 = 0 := by
          simp only [Tweenable.seqSetProgressAux, duration_mkOnce, eps, Nat.zero_le, ite_true]
          rw [if_neg (by linarith), if_pos (by linarith)]
        refine ⟨?_, ?_⟩
        · simp only [Tweenable.seqIndexGet]
          rw [hidx, hlen, hexp]; omega
        · simp only [Tweenable.seqCurrentDuration]
          rw [hidx, hlen, hexp, ← List.get?_map, hmap]
          rfl
      · rcases le_or_lt (3 * ratio) (1/5 + 1/100000) with hc2 | hc2
        · -- boundary of child 1
          have hexp : c7ExpectedIndex (3 * ratio) = 1 := by
            rw [c7ExpectedIndex, if_neg (not_lt.mpr hc1), if_pos (by linarith)]
          have hidx : (Tweenable.seqSetProgressAux 0 0 (3 * ratio)
              [mkOnce (1/5), mkOnce (2/5), mkOnce (3/5), mkOnce (4/5), mkOnce 1]).2 = 1 := by
            simp only [Tweenable.seqSetProgressAux, duration_mkOnce, eps, Nat.zero_le, ite_true]
            rw [if_neg (by linarith), if_neg (by linarith)]
          refine ⟨?_, ?_⟩
          · simp only [Tweenable.seqIndexGet]
            rw [hidx, hlen, hexp]; omega
          · simp only [Tweenable.seqCurrentDuration]
            rw [hidx, hlen, hexp, ← List.get?_map, hmap]
            rfl
        · rcases lt_or_le (3 * ratio) (3/5) with hc3 | hc3
          · -- strictly inside child 2
            have hx : 3 * ratio < 3/5 - 1/100000 := by
              rcases lt_or_le (3 * ratio) (3/5 - 1/100000) with h | h
              · exact h
              · exact absurd ⟨h, hc3⟩ hb2
            have hexp : c7ExpectedIndex (3 * ratio) = 1 := by
              rw [c7ExpectedIndex, if_neg (not_lt.mpr hc1), if_pos hc3]
            have hidx : (Tweenable.seqSetProgressAux 0 0 (3 * ratio)
                [mkOnce (1/5), mkOnce (2/5), mkOnce (3/5), mkOnce (4/5), mkOnce 1]).2
                  = 1 := by
              simp only [Tweenable.seqSetProgressAux, duration_mkOnce, eps, Nat.zero_le, ite_true]
              rw [if_pos (by linarith), if_neg (by linarith), if_pos (by linarith)]
            refine ⟨?_, ?_⟩
            · simp only [Tweenable.seqIndexGet]
              rw [hidx, hlen, hexp]; omega
            · simp only [Tweenable.seqCurrentDuration]
              rw [hidx, hlen, hexp, ← List.get?_map, hmap]
              rfl
          · rcases le_or_lt (3 * ratio) (3/5 + 1/100000) with hc4 | hc4
            · -- boundary of child 2
              have hexp : c7ExpectedIndex (3 * ratio) = 2 := by
                rw [c7ExpectedIndex, if_neg (not_lt.mpr hc1),
                  if_neg (not_lt.mpr hc3), if_pos (by linarith)]
              have hidx : (Tweenable.seqSetProgressAux 0 0 (3 * ratio)
                  [mkOnce (1/5), mkOnce (2/5), mkOnce (3/5), mkOnce (4/5), mkOnce 1]).2
                    = 2 := by
                simp only [Tweenable.seqSetProgressAux, duration_mkOnce, eps, Nat.zero_le, ite_true]
                rw [if_pos (by linarith), if_neg (by linarith), if_neg (by linarith)]
              refine ⟨?_, ?_⟩
              · simp only [Tweenable.seqIndexGet]
                rw [hidx, hlen, hexp]; omega
              · simp only [Tweenable.seqCurrentDuration]
                rw [hidx, hlen, hexp, ← List.get?_map, hmap]
                rfl
            · rcases lt_or_le (3 * ratio) (6/5) with hc5 | hc5
              · -- strictly inside child 3
                have hx : 3 * ratio < 6/5 - 1/100000 := by
                  rcases lt_or_le (3 * ratio) (6/5 - 1/100000) with h | h
                  · exact h
                  · exact absurd ⟨h, hc5⟩ hb3
                have hexp : c7ExpectedIndex (3 * ratio) = 2 := by
                  rw [c7ExpectedIndex, if_neg (not_lt.mpr hc1),
                    if_neg (not_lt.mpr hc3), if_pos hc5]
                have hidx : (Tweenable.seqSetProgressAux 0 0 (3 * ratio)
                    [mkOnce (1/5), mkOnce (2/5), mkOnce (3/5), mkOnce (4/5), mkOnce 1]).2
                      = 2 := by
                  simp only [Tweenable.seqSetProgressAux, duration_mkOnce, eps, Nat.zero_le, ite_true]
                  rw [if_pos (by linarith), if_pos (by linarith),
                    if_neg (by linarith), if_pos (by linarith)]
                refine ⟨?_, ?_⟩
                · simp only [Tweenable.seqIndexGet]
                  rw [hidx, hlen, hexp]; omega
                · simp only [Tweenable.seqCurrentDuration]
                  rw [hidx, hlen, hexp, ← List.get?_map, hmap]
                  rfl
              · rcases le_or_lt (3 * ratio) (6/5 + 1/100000) with hc6 | hc6
                · -- boundary of child 3
                  have hexp : c7ExpectedIndex (3 * ratio) = 3 := by
                    rw [c7ExpectedIndex, if_neg (not_lt.mpr hc1),
                      if_neg (not_lt.mpr hc3), if_neg (not_lt.mpr hc5),
                      if_pos (by linarith)]
                  have hidx : (Tweenable.seqSetProgressAux 0 0 (3 * ratio)
                      [mkOnce (1/5), mkOnce (2/5), mkOnce (3/5), mkOnce (4/5),
                        mkOnce 1]).2 = 3 := by
                    simp only [Tweenable.seqSetProgressAux, duration_mkOnce, eps, Nat.zero_le, ite_true]
                    rw [if_pos (by linarith), if_pos (by linarith),
                      if_neg (by linarith), if_neg (by linarith)]
                  refine ⟨?_, ?_⟩
                  · simp only [Tweenable.seqIndexGet]
                    rw [hidx, hlen, hexp]; omega
                  · simp only [Tweenable.seqCurrentDuration]
                    rw [hidx, hlen, hexp, ← List.get?_map, hmap]
                    rfl
                · rcases lt_or_le (3 * ratio) 2 with hc7 | hc7
                  · -- strictly inside child 4
                    have hx : 3 * ratio < 2 - 1/100000 := by
                      rcases lt_or_le (3 * ratio) (2 - 1/100000) with h | h
                      · exact h
                      · exact absurd ⟨h, hc7⟩ hb4
                    have hexp : c7ExpectedIndex (3 * ratio) = 3 := by
                      rw [c7ExpectedIndex, if_neg (not_lt.mpr hc1),
                        if_neg (not_lt.mpr hc3), if_neg (not_lt.mpr hc5), if_pos hc7]
                    have hidx : (Tweenable.seqSetProgressAux 0 0 (3 * ratio)
                        [mkOnce (1/5), mkOnce (2/5), mkOnce (3/5), mkOnce (4/5),
                          mkOnce 1]).2 = 3 := by
                      simp only [Tweenable.seqSetProgressAux, duration_mkOnce, eps, Nat.zero_le, ite_true]
                      rw [if_pos (by linarith), if_pos (by linarith),
                        if_pos (by linarith), if_neg (by linarith), if_pos (by linarith)]
                    refine ⟨?_, ?_⟩
                    · simp only [Tweenable.seqIndexGet]
                      rw [hidx, hlen, hexp]; omega
                    · simp only [Tweenable.seqCurrentDuration]
                      rw [hidx, hlen, hexp, ← List.get?_map, hmap]
                      rfl
                  · rcases le_or_lt (3 * ratio) (2 + 1/100000) with hc8 | hc8
                    · -- boundary of child 4
                      have hexp : c7ExpectedIndex (3 * ratio) = 4 := by
                        rw [c7ExpectedIndex, if_neg (not_lt.mpr hc1),
                          if_neg (not_lt.mpr hc3), if_neg (not_lt.mpr hc5),
                          if_neg (not_lt.mpr hc7)]
                      have hidx : (Tweenable.seqSetProgressAux 0 0 (3 * ratio)
                          [mkOnce (1/5), mkOnce (2/5), mkOnce (3/5), mkOnce (4/5),
                            mkOnce 1]).2 = 4 := by
                        simp only [Tweenable.seqSetProgressAux, duration_mkOnce, eps, Nat.zero_le, ite_true]
                        rw [if_pos (by linarith), if_pos (by linarith),
                          if_pos (by linarith), if_neg (by linarith), if_neg (by linarith)]
                      refine ⟨?_, ?_⟩
                      · simp only [Tweenable.seqIndexGet]
                        rw [hidx, hlen, hexp]; omega
                      · simp only [Tweenable.seqCurrentDuration]
                        rw [hidx, hlen, hexp, ← List.get?_map, hmap]
                        rfl
                    · -- strictly inside child 5
                      have hx : 3 * ratio ≤ 3 - 3/100000 := by linarith
                      have hexp : c7ExpectedIndex (3 * ratio) = 4 := by
                        rw [c7ExpectedIndex, if_neg (not_lt.mpr hc1),
                          if_neg (not_lt.mpr hc3), if_neg (not_lt.mpr hc5),
                          if_neg (not_lt.mpr hc7)]
                      have hidx : (Tweenable.seqSetProgressAux 0 0 (3 * ratio)
                          [mkOnce (1/5), mkOnce (2/5), mkOnce (3/5), mkOnce (4/5),
                            mkOnce 1]).2 = 4 := by
                        simp only [Tweenable.seqSetProgressAux, duration_mkOnce, eps, Nat.zero_le, ite_true]
                        rw [if_pos (by linarith), if_pos (by linarith),
                          if_pos (by linarith), if_pos (by linarith),
                          if_neg (by linarith), if_pos (by linarith)]
                      refine ⟨?_, ?_⟩
                      · simp only [Tweenable.seqIndexGet]
                        rw [hidx, hlen, hexp]; omega
                      · simp only [Tweenable.seqCurrentDuration]
                        rw [hidx, hlen, hexp, ← List.get?_map, hmap]
                        rfl

/-- Witness for C7 (amended) at ratio `1/3` (target time 1s, inside the
third child): the resulting index is 2 and the current child's duration is
0.6s. -/
theorem c7_seq_setProgress_index_amended_witness :
    ((0 : ℚ) ≤ 1/3 ∧ (1/3 : ℚ) ≤ 1) ∧
    Tweenable.seqIndexGet (Tweenable.setProgress demoSeq5 (1/3))
      = c7ExpectedIndex (3 * (1/3)) ∧
    Tweenable.seqCurrentDuration (Tweenable.setProgress demoSeq5 (1/3))
      = [(1:ℚ)/5, 2/5, 3/5, 4/5, 1].get? (c7ExpectedIndex (3 * (1/3))) := by
  have h := c7_seq_setProgress_index_amended (1/3) (by norm_num) (by norm_num)
    (by intro b hb; fin_cases hb <;> norm_num [eps])
  exact ⟨⟨by norm_num, by norm_num⟩, h.1, h.2⟩

end BevyTweening
